import Mathlib

/-!
# JobQuest: the API service and the dashboard aggregations

A shallow embedding of `src/backend/index.js` (the Express routes over the
Mongoose model `Job`) and of the pure derivations of
`src/frontend/src/App.jsx` (status counts, monthly counts, status filter).

Conventions of the embedding.

* The libraries behave as Express 5 and Mongoose 8 do: `req.body` is
  `undefined` when no body was parsed, a `null` value is neither defaulted nor
  refused by the validators of a path that is not required, and an `_id` is
  written with 24 hexadecimal digits.
* A field of a parsed body is absent (JavaScript `undefined`), `null`, or a
  text. Other JSON values (numbers, booleans, arrays, objects) are outside the
  model.
* The record store is reliable: the only failures of the store calls are a
  schema validation failure in `save` and an identifier that cannot be read in
  `findByIdAndDelete`. Store outages (the other source of the 500 answers) are
  outside the model.
* Identifiers are natural numbers (the value of the 24 hexadecimal digits)
  handed out by a counter kept with the store, standing for the generated
  `_id`; timestamps are milliseconds since the epoch, read from a clock that
  the environment supplies with each create.
-/

namespace JobQuest

/-! ## Backend (`src/backend/index.js`) -/

namespace Backend

/-- The `enum` of the `status` path of `jobSchema`. -/
def statusEnum : List String := ["Applied", "Interview", "Offer", "Rejected"]

/-- A field of a parsed JSON body, and a path of a document: absent (`undefined`),
`null`, or a text. -/
inductive Field where
  | undefined
  | null
  | text (s : String)
deriving DecidableEq, Repr

/-- The fields destructured from `req.body` by the create route. -/
structure Body where
  company : Field
  role : Field
  location : Field
  status : Field
deriving DecidableEq, Repr

/-- JavaScript `!x` for a field: true for `undefined`, for `null` and for `""`. -/
def falsy : Field → Bool
  | .undefined => true
  | .null => true
  | .text s => decide (s = "")

/-- A document of the model `Job`: the paths of `jobSchema`, the generated `_id`,
and the `updatedAt` path added by `timestamps: true`. -/
structure Job where
  _id : Nat
  company : Field
  role : Field
  location : Field
  status : Field
  createdAt : Nat
  updatedAt : Nat
deriving DecidableEq, Repr

/-- The collection behind the model, in insertion order, with the identifier counter. -/
structure Store where
  docs : List Job
  nextId : Nat
deriving DecidableEq, Repr

/-- The store before any operation. -/
def emptyStore : Store := { docs := [], nextId := 0 }

/-- Construction `new Job(fields)`: the given fields are copied, `status` takes the schema
default "Applied" when it is undefined (a `null` is kept), and the timestamps default to
the current time. -/
def newJob (id now : Nat) (b : Body) : Job :=
  { _id := id
    company := b.company
    role := b.role
    location := b.location
    status := match b.status with
      | .undefined => .text "Applied"
      | .null => .null
      | .text s => .text s
    createdAt := now
    updatedAt := now }

/-- The `required: true` validator of a String path: the value is a non-empty string. -/
def requiredOk : Field → Bool
  | .undefined => false
  | .null => false
  | .text s => decide (s ≠ "")

/-- The `enum` validator of the `status` path: validators are skipped on an undefined
value, and the enum validator accepts `null`. -/
def enumOk : Field → Bool
  | .undefined => true
  | .null => true
  | .text s => decide (s ∈ statusEnum)

/-- Schema validation run by `save`. -/
def validate (j : Job) : Bool :=
  requiredOk j.company && requiredOk j.role && enumOk j.status

/-- Persisting `job.save()`: rejects when validation fails, otherwise inserts the document
and resolves to it. -/
def save (st : Store) (j : Job) : Except String (Job × Store) :=
  if validate j then
    .ok (j, { docs := st.docs ++ [j], nextId := st.nextId + 1 })
  else
    .error "ValidationError"

/-- The body handed to `res.json` / `res.send`. -/
inductive Payload where
  | job (j : Job)
  | jobs (l : List Job)
  | error (msg : String)
  | message (msg : String)
deriving DecidableEq, Repr

/-- An HTTP answer: status code and JSON payload (`res.json` without `res.status` is 200). -/
structure Response where
  status : Nat
  body : Payload
deriving DecidableEq, Repr

/-- Query `Job.find().sort(createdAt: -1)`: every document, newest first. The store does
not fix the order of documents with equal timestamps; the model keeps them in insertion
order, and no theorem below depends on that choice. -/
def findSortedByCreatedAtDesc (st : Store) : List Job :=
  st.docs.insertionSort (fun a b => b.createdAt ≤ a.createdAt)

/-- Route GET /api/jobs. -/
def getJobs (st : Store) : Response :=
  { status := 200, body := .jobs (findSortedByCreatedAtDesc st) }

/-- Route POST /api/jobs. The argument `reqBody` is `req.body`: `none` when no body was
parsed, in which case the destructuring at the head of the `try` block throws and the
`catch` answers 500. -/
def postJobs (st : Store) (now : Nat) (reqBody : Option Body) : Response × Store :=
  match reqBody with
  | none => ({ status := 500, body := .error "Failed to add job" }, st)
  | some body =>
    if falsy body.company || falsy body.role then
      ({ status := 400, body := .error "Company and Role are required" }, st)
    else
      match save st (newJob st.nextId now body) with
      | .ok (saved, st') => ({ status := 201, body := .job saved }, st')
      | .error _ => ({ status := 500, body := .error "Failed to add job" }, st)

/-- The value of a hexadecimal digit, in either case. -/
def hexDigit (c : Char) : Option Nat :=
  if 48 ≤ c.toNat ∧ c.toNat ≤ 57 then some (c.toNat - 48)
  else if 97 ≤ c.toNat ∧ c.toNat ≤ 102 then some (c.toNat - 87)
  else if 65 ≤ c.toNat ∧ c.toNat ≤ 70 then some (c.toNat - 55)
  else none

/-- The number written by hexadecimal digits after the digits already read; `none` when
a character is not a hexadecimal digit. -/
def hexValueFrom (acc : Nat) : List Char → Option Nat
  | [] => some acc
  | c :: cs =>
    match hexDigit c with
    | none => none
    | some d => hexValueFrom (16 * acc + d) cs

/-- Reading of the path segment `req.params.id` as an `_id` by the store library: a text
of 24 hexadecimal digits is the identifier it writes; for any other text the query
rejects with a cast error (`none`). -/
def castObjectId (idParam : String) : Option Nat :=
  if idParam.length = 24 then hexValueFrom 0 idParam.toList else none

/-- Removal of the first document whose `_id` is `id`, if any. -/
def findByIdAndDelete (st : Store) (id : Nat) : Store :=
  { st with docs := st.docs.eraseP (fun d => d._id == id) }

/-- Route DELETE /api/jobs/:id. The argument is the path segment `req.params.id`; when
the store library cannot read it as an identifier, `Job.findByIdAndDelete` rejects and
the `catch` answers 500. -/
def deleteJobs (st : Store) (idParam : String) : Response × Store :=
  match castObjectId idParam with
  | none => ({ status := 500, body := .error "Failed to delete job" }, st)
  | some id => ({ status := 200, body := .message "Deleted" }, findByIdAndDelete st id)

/-- A mutating request to the API: a create with the clock reading and `req.body`, or a
delete with the path segment `req.params.id`. -/
inductive Op where
  | create (now : Nat) (reqBody : Option Body)
  | delete (idParam : String)
deriving DecidableEq, Repr

/-- The store after one request. -/
def step (st : Store) : Op → Store
  | .create now reqBody => (postJobs st now reqBody).2
  | .delete idParam => (deleteJobs st idParam).2

/-- The store after a sequence of requests. -/
def run (st : Store) (ops : List Op) : Store :=
  ops.foldl step st

/-- What the schema and the route guard together ensure of a persisted record: a
non-empty company, a non-empty role, and a status that is `null` or among the four
enumerated values. -/
def WellFormed (d : Job) : Prop :=
  (∃ c, d.company = .text c ∧ c ≠ "") ∧
    (∃ r, d.role = .text r ∧ r ≠ "") ∧
    (d.status = .null ∨ ∃ s, d.status = .text s ∧ s ∈ statusEnum)

/-- Test `s.startsWith(p)` on character lists. -/
def startsWithChars : List Char → List Char → Bool
  | _, [] => true
  | [], _ :: _ => false
  | c :: cs, p :: ps => decide (c = p) && startsWithChars cs ps

/-- Test `s.includes(sub)` on character lists: `sub` occurs at some position of `s`. -/
def includesChars : List Char → List Char → Bool
  | [], sub => sub.isEmpty
  | c :: cs, sub => startsWithChars (c :: cs) sub || includesChars cs sub

/-- JavaScript `origin.includes(sub)`. -/
def includes (origin sub : String) : Bool :=
  includesChars origin.toList sub.toList

/-- What the `origin` callback of the CORS middleware hands to `callback`. -/
inductive CorsDecision where
  | allow
  | reject (msg : String)
deriving DecidableEq, Repr

/-- The `origin` callback of the CORS middleware: `.allow` is `callback(null, true)`,
`.reject msg` is `callback(new Error(msg))`. The argument is the request's Origin header,
`none` when the request carries none. -/
def corsOrigin (origin : Option String) : CorsDecision :=
  match origin with
  | none => .allow
  | some o =>
    if decide (o = "") || includes o "localhost" then .allow
    else .reject "Not allowed by CORS"

/-- The part of a character list after the first occurrence of "://", if there is one. -/
def afterScheme : List Char → Option (List Char)
  | [] => none
  | c :: cs =>
    if startsWithChars (c :: cs) [':', '/', '/'] then some (cs.drop 2)
    else afterScheme cs

/-- Host name of a serialized origin `scheme://host[:port]`. -/
def originHost (o : String) : Option (List Char) :=
  (afterScheme o.toList).map (fun rest => rest.takeWhile (fun c => c != ':' && c != '/'))

/-- A local-host origin, in the words of the specification: an origin whose host is
`localhost`. -/
def isLocalHostOrigin (o : String) : Bool :=
  decide (originHost o = some "localhost".toList)

end Backend

/-! ## Dashboard (`src/frontend/src/App.jsx`) -/

namespace Client

/-- The constant `statuses` of the component. -/
def statuses : List String := ["Applied", "Interview", "Offer", "Rejected"]

/-- What the aggregation observes of `new Date(job.createdAt)`: either an invalid date
(`getTime()` is NaN) or the local `getFullYear()` and `getMonth()` (0 to 11). -/
inductive JsDate where
  | invalid
  | valid (fullYear : Int) (month : Fin 12)
deriving DecidableEq, Repr

/-- A record of the list `jobs` held by the component, as received from the API. -/
structure Job where
  _id : Nat
  company : String
  role : String
  location : Option String
  status : String
  createdAt : JsDate
deriving DecidableEq, Repr

/-- A plain object with string keys and numeric values; the entries are kept in the
order in which the keys were first assigned (no key written by the component is an
integer index, so this is the order that `Object.entries` reports). -/
abbrev JsObject := List (String × Nat)

/-- Property read `obj[key]`; `none` is `undefined`. -/
def JsObject.get : JsObject → String → Option Nat
  | [], _ => none
  | (k, v) :: rest, key => if k = key then some v else JsObject.get rest key

/-- Property write `obj[key] = value`. -/
def JsObject.set : JsObject → String → Nat → JsObject
  | [], key, value => [(key, value)]
  | (k, v) :: rest, key, value =>
    if k = key then (k, value) :: rest else (k, v) :: JsObject.set rest key value

/-- The figure `totalApplications`. -/
def totalApplications (jobs : List Job) : Nat := jobs.length

/-- The object `statusCounts`: a reduce over `statuses` that stores, under each status,
the length of the list of jobs filtered on that status. -/
def statusCounts (jobs : List Job) : JsObject :=
  statuses.foldl
    (fun acc status => acc.set status (jobs.filter (fun job => job.status == status)).length)
    []

/-- The pie chart rows `statusChartData`: name and `statusCounts[status] || 0`. -/
def statusChartData (jobs : List Job) : List (String × Nat) :=
  statuses.map (fun status => (status, ((statusCounts jobs).get status).getD 0))

/-- Padding `s.padStart(2, "0")`. -/
def padStart2 (s : String) : String :=
  String.mk (List.replicate (2 - s.length) '0') ++ s

/-- The key of a month: the year, a dash, and the month number (1 to 12) on two digits. -/
def monthKey (fullYear : Int) (month : Fin 12) : String :=
  toString fullYear ++ "-" ++ padStart2 (toString (month.val + 1))

/-- One step of the `forEach` that fills `monthlyMap`. -/
def monthlyStep (map : JsObject) (job : Job) : JsObject :=
  match job.createdAt with
  | .invalid => map
  | .valid y m => map.set (monthKey y m) (((map.get (monthKey y m)).getD 0) + 1)

/-- The object `monthlyMap` after the `forEach` over `jobs`. -/
def monthlyMap (jobs : List Job) : JsObject :=
  jobs.foldl monthlyStep []

/-- Lexicographic comparison of character lists by character code (the keys compared by
the component are ASCII, where character codes and UTF-16 code units agree). -/
def lexLt : List Char → List Char → Bool
  | [], [] => false
  | [], _ :: _ => true
  | _ :: _, [] => false
  | a :: as, b :: bs =>
    if a.toNat < b.toNat then true
    else if b.toNat < a.toNat then false
    else lexLt as bs

/-- JavaScript `a < b` on strings. -/
def jsStringLt (a b : String) : Bool := lexLt a.toList b.toList

/-- The comparator given to `sort`: `a < b ? -1 : 1` on the keys of two entries. -/
def compareEntries (x y : String × Nat) : Int :=
  if jsStringLt x.1 y.1 then -1 else 1

/-- The entries of `monthlyMap` after `sort`: `x` is placed before `y` when the
comparator answers a negative number. The keys of an object are pairwise distinct, so the
comparator is a strict total order on the entries and the sorted result does not depend on
the sorting algorithm; the model inserts the entries one by one. -/
def sortedEntries (jobs : List Job) : List (String × Nat) :=
  (monthlyMap jobs).insertionSort (fun x y => compareEntries x y < 0)

/-- Splitting `key.split("-")` on character lists. -/
def splitDash : List Char → List (List Char)
  | [] => [[]]
  | c :: cs =>
    if c = '-' then [] :: splitDash cs
    else
      match splitDash cs with
      | [] => [[c]]
      | p :: ps => (c :: p) :: ps

/-- The label of a key: with `[year, month] = key.split("-")`, the text
`month/year.slice(-2)`. Every key holds a dash, so both parts exist. -/
def chartLabel (key : String) : String :=
  let parts := splitDash key.toList
  let year := parts.getD 0 []
  let month := parts.getD 1 []
  String.mk (month ++ '/' :: year.drop (year.length - 2))

/-- A bar of the monthly chart. -/
structure MonthGroup where
  month : String
  count : Nat
deriving DecidableEq, Repr

/-- The bar chart rows `monthlyChartData`. -/
def monthlyChartData (jobs : List Job) : List MonthGroup :=
  (sortedEntries jobs).map (fun e => { month := chartLabel e.1, count := e.2 })

/-- The table rows `filteredJobs`. -/
def filteredJobs (filterStatus : String) (jobs : List Job) : List Job :=
  if filterStatus = "All" then jobs
  else jobs.filter (fun job => job.status == filterStatus)

/-- A month in time order: earlier year, or same year and earlier month. -/
def monthBefore (a b : Int × Fin 12) : Prop :=
  a.1 < b.1 ∨ (a.1 = b.1 ∧ a.2 < b.2)

/-- The month of a record's timestamp, when the timestamp is a valid date. -/
def monthOf (job : Job) : Option (Int × Fin 12) :=
  match job.createdAt with
  | .invalid => none
  | .valid y m => some (y, m)

/-- The months of the records whose timestamp is a valid date, in list order. -/
def validMonths (jobs : List Job) : List (Int × Fin 12) :=
  jobs.filterMap monthOf

/-- A sample list held by the dashboard: three dated records over two months and one
record whose timestamp does not parse. -/
def sampleJobs : List Job :=
  [ Job.mk 1 "Google" "SDE Intern" none "Applied" (JsDate.valid 2025 10),
    Job.mk 2 "Meta" "PM" none "Offer" (JsDate.valid 2025 0),
    Job.mk 3 "Initech" "Analyst" none "Rejected" JsDate.invalid,
    Job.mk 4 "Acme" "Engineer" none "Applied" (JsDate.valid 2025 10) ]

/-- The number of records with a valid timestamp whose month has the given key. -/
def keyCount (key : String) (jobs : List Job) : Nat :=
  (validMonths jobs).countP (fun ym => decide (monthKey ym.1 ym.2 = key))

/-- The keys of an object, in entry order. -/
def JsObject.keys (o : JsObject) : List String := o.map Prod.fst

/-- The sum of the values of an object. -/
def JsObject.total (o : JsObject) : Nat := (o.map Prod.snd).sum

/-- The value of a decimal digit character. -/
def charVal (c : Char) : Nat := c.toNat - 48

/-- The number written by a list of decimal digit characters. -/
def decodeDigits (cs : List Char) : Nat :=
  cs.foldl (fun acc c => 10 * acc + charVal c) 0

end Client

/-! ## Theorems about the API service -/

namespace Backend

theorem falsy_iff (x : Field) :
    falsy x = true ↔ x = .undefined ∨ x = .null ∨ x = .text "" := by
  cases x with
  | undefined => simp [falsy]
  | null => simp [falsy]
  | text s => simp [falsy]

theorem requiredOk_of_not_falsy (x : Field) (h : falsy x = false) :
    requiredOk x = true := by
  cases x with
  | undefined => simp [falsy] at h
  | null => simp [falsy] at h
  | text s => simpa [falsy, requiredOk] using h

/-- A create request whose parsed body has a missing, null or empty company or role is
answered 400 with the validation error, and the store is unchanged. -/
theorem postJobs_missing_field (st : Store) (now : Nat) (body : Body)
    (h : falsy body.company = true ∨ falsy body.role = true) :
    postJobs st now (some body) =
        ({ status := 400, body := .error "Company and Role are required" }, st) ∧
      (postJobs st now (some body)).2.docs = st.docs ∧
      getJobs (postJobs st now (some body)).2 = getJobs st := by
  have hf : (falsy body.company || falsy body.role) = true := by
    rw [Bool.or_eq_true]
    exact h
  have hp : postJobs st now (some body) =
      ({ status := 400, body := .error "Company and Role are required" }, st) := by
    simp only [postJobs]
    rw [if_pos hf]
  rw [hp]
  exact ⟨rfl, rfl, rfl⟩

/-- Whatever the request, a create that is not answered 201 leaves the store unchanged. -/
theorem postJobs_store_unchanged (st : Store) (now : Nat) (reqBody : Option Body)
    (h : (postJobs st now reqBody).1.status ≠ 201) : (postJobs st now reqBody).2 = st := by
  cases reqBody with
  | none => rfl
  | some body =>
    by_cases hf : (falsy body.company || falsy body.role) = true
    · simp [postJobs, hf]
    · by_cases hv : validate (newJob st.nextId now body) = true
      · simp [postJobs, hf, save, hv] at h
      · simp [postJobs, hf, save, hv]

/-- C1 fails on the code at a request without a parsed body: company and role are
missing, yet the answer is 500 with the generic error instead of the validation error
400; the store is unchanged. -/
theorem postJobs_no_body :
    postJobs emptyStore 7 none =
        ({ status := 500, body := .error "Failed to add job" }, emptyStore) ∧
      (postJobs emptyStore 7 none).1.status ≠ 400 ∧
      (postJobs emptyStore 7 none).2 = emptyStore ∧
      postJobs emptyStore 7 (some (Body.mk .undefined .undefined .undefined .undefined)) =
        ({ status := 400, body := .error "Company and Role are required" }, emptyStore) := by
  decide

/-- C2, as stated, fails: a create request with a non-empty company and a non-empty role
whose status is outside the enumeration is answered 500 and nothing is persisted. -/
theorem postJobs_unknown_status_fails :
    (Body.mk (.text "Acme") (.text "Engineer") .undefined (.text "Pending")).company =
        .text "Acme" ∧
      (Body.mk (.text "Acme") (.text "Engineer") .undefined (.text "Pending")).role =
        .text "Engineer" ∧
      "Acme" ≠ "" ∧ "Engineer" ≠ "" ∧
      postJobs emptyStore 7
          (some (Body.mk (.text "Acme") (.text "Engineer") .undefined (.text "Pending"))) =
        ({ status := 500, body := .error "Failed to add job" }, emptyStore) ∧
      (postJobs emptyStore 7
        (some (Body.mk (.text "Acme") (.text "Engineer") .undefined
          (.text "Pending")))).1.status ≠ 201 := by
  decide

/-- Every create request with a non-empty company and role whose status is a text outside
the enumeration is answered 500, and nothing is persisted. -/
theorem postJobs_status_outside_enum (st : Store) (now : Nat) (body : Body) (s : String)
    (hc : falsy body.company = false) (hr : falsy body.role = false)
    (hs : body.status = .text s) (hne : s ∉ statusEnum) :
    postJobs st now (some body) =
      ({ status := 500, body := .error "Failed to add job" }, st) := by
  have hv : validate (newJob st.nextId now body) = false := by
    simp [validate, newJob, hs, enumOk, hne]
  simp [postJobs, hc, hr, save, hv]

theorem mem_findSortedByCreatedAtDesc (st : Store) (j : Job) :
    j ∈ findSortedByCreatedAtDesc st ↔ j ∈ st.docs := by
  unfold findSortedByCreatedAtDesc
  exact List.mem_insertionSort _

theorem validate_newJob (id now : Nat) (body : Body)
    (hc : falsy body.company = false) (hr : falsy body.role = false)
    (hs : body.status = .undefined ∨ body.status = .null ∨
      ∃ s, s ∈ statusEnum ∧ body.status = .text s) :
    validate (newJob id now body) = true := by
  have h3 : enumOk (newJob id now body).status = true := by
    rcases hs with hs | hs | ⟨s, hmem, hs⟩
    · simp [newJob, hs, enumOk, statusEnum]
    · simp [newJob, hs, enumOk]
    · simp [newJob, hs, enumOk, hmem]
  simp only [validate, Bool.and_eq_true]
  exact ⟨⟨requiredOk_of_not_falsy _ hc, requiredOk_of_not_falsy _ hr⟩, h3⟩

/-- C2, amended: a create request with a non-empty company, a non-empty role and a status
that is omitted or one of the four enumerated values is answered 201 with the new record,
the record is afterwards returned by the list operation, it carries the company and role
of the request, and its status is "Applied" when the request omitted the status. -/
theorem postJobs_valid (st : Store) (now : Nat) (body : Body) (c r : String)
    (hc : body.company = .text c) (hc0 : c ≠ "") (hr : body.role = .text r) (hr0 : r ≠ "")
    (hs : body.status = .undefined ∨ ∃ s, s ∈ statusEnum ∧ body.status = .text s) :
    postJobs st now (some body) =
        ({ status := 201, body := .job (newJob st.nextId now body) },
          { docs := st.docs ++ [newJob st.nextId now body], nextId := st.nextId + 1 }) ∧
      getJobs (postJobs st now (some body)).2 =
        { status := 200,
          body := .jobs (findSortedByCreatedAtDesc (postJobs st now (some body)).2) } ∧
      newJob st.nextId now body ∈ findSortedByCreatedAtDesc (postJobs st now (some body)).2 ∧
      (newJob st.nextId now body).company = .text c ∧
      (newJob st.nextId now body).role = .text r ∧
      (body.status = .undefined → (newJob st.nextId now body).status = .text "Applied") ∧
      (∀ s, body.status = .text s → (newJob st.nextId now body).status = .text s) := by
  have hfc : falsy body.company = false := by simp [hc, falsy, hc0]
  have hfr : falsy body.role = false := by simp [hr, falsy, hr0]
  have hs' : body.status = .undefined ∨ body.status = .null ∨
      ∃ s, s ∈ statusEnum ∧ body.status = .text s := by
    rcases hs with hs | hs
    · exact Or.inl hs
    · exact Or.inr (Or.inr hs)
  have hv := validate_newJob st.nextId now body hfc hfr hs'
  have hp : postJobs st now (some body) =
      ({ status := 201, body := .job (newJob st.nextId now body) },
        { docs := st.docs ++ [newJob st.nextId now body], nextId := st.nextId + 1 }) := by
    simp [postJobs, hfc, hfr, save, hv]
  refine ⟨hp, rfl, ?_, ?_, ?_, ?_, ?_⟩
  · rw [mem_findSortedByCreatedAtDesc, hp]
    simp
  · simp [newJob, hc]
  · simp [newJob, hr]
  · intro h
    simp [newJob, h]
  · intro s h
    simp [newJob, h]

theorem postJobs_valid_witness :
    postJobs emptyStore 7
        (some (Body.mk (.text "Google") (.text "SDE Intern") .undefined .undefined)) =
        ({ status := 201,
           body := .job (newJob 0 7
             (Body.mk (.text "Google") (.text "SDE Intern") .undefined .undefined)) },
          { docs := [newJob 0 7
              (Body.mk (.text "Google") (.text "SDE Intern") .undefined .undefined)],
            nextId := 1 }) ∧
      (newJob 0 7 (Body.mk (.text "Google") (.text "SDE Intern") .undefined .undefined)).status =
        .text "Applied" :=
  have h := postJobs_valid emptyStore 7
    (Body.mk (.text "Google") (.text "SDE Intern") .undefined .undefined)
    "Google" "SDE Intern" rfl (by decide) rfl (by decide) (Or.inl rfl)
  ⟨h.1, h.2.2.2.2.2.1 rfl⟩

theorem eraseP_id_eq_erase (docs : List Job) (id : Nat) (d : Job)
    (h : docs.find? (fun x => x._id == id) = some d) :
    docs.eraseP (fun x => x._id == id) = docs.erase d := by
  induction docs with
  | nil => simp at h
  | cons x xs ih =>
    by_cases hx : x._id = id
    · have hxb : (x._id == id) = true := by simpa using hx
      have hxd : x = d := by
        rw [List.find?_cons_of_pos (p := fun (x : Job) => x._id == id) _ hxb] at h
        exact Option.some.inj h
      subst hxd
      rw [List.eraseP_cons_of_pos (p := fun (x : Job) => x._id == id) hxb, List.erase_cons_head]
    · have hxb : ¬ (x._id == id) = true := by simpa using hx
      have hne : x ≠ d := by
        intro hxd
        have hd := List.find?_some h
        simp at hd
        exact hx (hxd ▸ hd)
      have h' : xs.find? (fun x => x._id == id) = some d := by
        rw [List.find?_cons_of_neg (p := fun (x : Job) => x._id == id) _ hxb] at h
        exact h
      have hne' : ¬ (x == d) = true := by simpa using hne
      rw [List.eraseP_cons_of_neg (p := fun (x : Job) => x._id == id) hxb,
        List.erase_cons_tail hne', ih h']

theorem hexValueFrom_isSome (cs : List Char) (acc : Nat) :
    (hexValueFrom acc cs).isSome = true ↔ ∀ c ∈ cs, (hexDigit c).isSome = true := by
  induction cs generalizing acc with
  | nil => simp [hexValueFrom]
  | cons c cs ih =>
    cases hd : hexDigit c with
    | none => simp [hexValueFrom, hd]
    | some d => simp [hexValueFrom, hd, ih]

/-- The texts read as identifiers are the texts of 24 hexadecimal digits. -/
theorem castObjectId_isSome (idParam : String) :
    (castObjectId idParam).isSome = true ↔
      idParam.length = 24 ∧ ∀ c ∈ idParam.toList, (hexDigit c).isSome = true := by
  unfold castObjectId
  by_cases h : idParam.length = 24
  · rw [if_pos h, hexValueFrom_isSome]
    exact ⟨fun hc => ⟨h, hc⟩, fun hc => hc.2⟩
  · rw [if_neg h]
    constructor
    · intro hc
      exact absurd hc (by simp)
    · intro hc
      exact absurd hc.1 h

theorem no_id_left_after_erase (docs : List Job) (id : Nat) (d : Job)
    (hnd : (docs.map (fun x => x._id)).Nodup) (hmem : d ∈ docs) (hid : d._id = id) :
    ∀ e ∈ docs.erase d, e._id ≠ id := by
  intro e he heid
  have hdocs : docs.Nodup := List.Nodup.of_map _ hnd
  obtain ⟨hne, hemem⟩ := (List.Nodup.mem_erase_iff hdocs).mp he
  exact hne (List.inj_on_of_nodup_map hnd hemem hmem (heid.trans hid.symm))

theorem step_preserves_ids (st : Store) (op : Op)
    (h : (st.docs.map (fun x => x._id)).Nodup ∧ ∀ d ∈ st.docs, d._id < st.nextId) :
    ((step st op).docs.map (fun x => x._id)).Nodup ∧
      ∀ d ∈ (step st op).docs, d._id < (step st op).nextId := by
  cases op with
  | create now reqBody =>
    cases reqBody with
    | none => exact h
    | some body =>
      by_cases hf : (falsy body.company || falsy body.role) = true
      · simpa [step, postJobs, hf] using h
      · by_cases hv : validate (newJob st.nextId now body) = true
        · have hstep : step st (Op.create now (some body)) =
              { docs := st.docs ++ [newJob st.nextId now body], nextId := st.nextId + 1 } := by
            simp [step, postJobs, hf, save, hv]
          rw [hstep]
          constructor
          · rw [List.map_append, List.nodup_append]
            refine ⟨h.1, by simp, ?_⟩
            intro a ha hb
            obtain ⟨d, hd, hda⟩ := List.mem_map.mp ha
            have hlt := h.2 d hd
            have hb' : a = st.nextId := by simpa [newJob] using hb
            have hda' : d._id = a := hda
            omega
          · intro d hd
            rcases List.mem_append.mp hd with hd | hd
            · exact Nat.lt_succ_of_lt (h.2 d hd)
            · rw [List.mem_singleton.mp hd]
              simp [newJob]
        · simpa [step, postJobs, hf, save, hv] using h
  | delete idParam =>
    cases hc : castObjectId idParam with
    | none => simpa [step, deleteJobs, hc] using h
    | some id =>
      have hstep : step st (Op.delete idParam) = findByIdAndDelete st id := by
        simp [step, deleteJobs, hc]
      rw [hstep]
      have hsub : (st.docs.eraseP (fun d => d._id == id)).Sublist st.docs :=
        List.eraseP_sublist _
      constructor
      · exact List.Nodup.sublist (hsub.map _) h.1
      · intro d hd
        exact h.2 d (hsub.subset hd)

/-- In every store reached from the empty store the identifiers of the records are
pairwise distinct. -/
theorem reachable_ids_nodup (ops : List Op) :
    ((run emptyStore ops).docs.map (fun x => x._id)).Nodup := by
  have hgen : ∀ (ops : List Op) (st : Store),
      ((st.docs.map (fun x => x._id)).Nodup ∧ ∀ d ∈ st.docs, d._id < st.nextId) →
      ((run st ops).docs.map (fun x => x._id)).Nodup ∧
        ∀ d ∈ (run st ops).docs, d._id < (run st ops).nextId := by
    intro ops
    induction ops with
    | nil =>
      intro st h
      simpa [run] using h
    | cons op ops ih =>
      intro st h
      have := ih (step st op) (step_preserves_ids st op h)
      simpa [run] using this
  exact (hgen ops emptyStore (by simp [emptyStore])).1

/-- C3, as stated, fails: the path segment `abc` is the id of no record, yet the delete
operation answers 500 with the generic error instead of the confirmation; the store is
unchanged. -/
theorem deleteJobs_unreadable_id :
    castObjectId "abc" = none ∧
      deleteJobs emptyStore "abc" =
        ({ status := 500, body := .error "Failed to delete job" }, emptyStore) ∧
      (deleteJobs emptyStore "abc").1.status ≠ 200 ∧
      (deleteJobs
        { docs := [newJob 0 7 (Body.mk (.text "Google") (.text "SDE Intern") .undefined .undefined)],
          nextId := 1 } "abc") =
        ({ status := 500, body := .error "Failed to delete job" },
          { docs := [newJob 0 7
              (Body.mk (.text "Google") (.text "SDE Intern") .undefined .undefined)],
            nextId := 1 }) := by
  decide

/-- C3, amended: for every id that the store reads as a record identifier (a text of 24
hexadecimal digits), the delete operation answers 200 with the confirmation; when no
record has the id the store is unchanged; when a record has the id, the store afterwards
holds the previous records minus that one (the other records are kept, in order, and
when identifiers are pairwise distinct, as in every reachable store, no record with the
id is left). For every other id the operation answers 500 and the store is unchanged. -/
theorem deleteJobs_removes_exactly (st : Store) (idParam : String) :
    ((castObjectId idParam).isSome = true ↔
        idParam.length = 24 ∧ ∀ c ∈ idParam.toList, (hexDigit c).isSome = true) ∧
      (∀ id, castObjectId idParam = some id →
        (deleteJobs st idParam).1 = { status := 200, body := .message "Deleted" } ∧
          ((∀ d ∈ st.docs, d._id ≠ id) → (deleteJobs st idParam).2 = st) ∧
          (∀ d, st.docs.find? (fun x => x._id == id) = some d →
            d ∈ st.docs ∧ d._id = id ∧
              (deleteJobs st idParam).2.docs = st.docs.erase d ∧
              (deleteJobs st idParam).2.docs.length + 1 = st.docs.length ∧
              (∀ e, e ≠ d → (e ∈ (deleteJobs st idParam).2.docs ↔ e ∈ st.docs)) ∧
              ((st.docs.map (fun x => x._id)).Nodup →
                ∀ e ∈ (deleteJobs st idParam).2.docs, e._id ≠ id))) ∧
      (castObjectId idParam = none →
        deleteJobs st idParam =
          ({ status := 500, body := .error "Failed to delete job" }, st)) := by
  refine ⟨castObjectId_isSome idParam, ?_, ?_⟩
  · intro id hid
    have hdel : deleteJobs st idParam =
        ({ status := 200, body := .message "Deleted" }, findByIdAndDelete st id) := by
      simp only [deleteJobs, hid]
    rw [hdel]
    refine ⟨rfl, ?_, ?_⟩
    · intro h
      have he : st.docs.eraseP (fun d => d._id == id) = st.docs := by
        apply List.eraseP_of_forall_not
        intro d hd
        simpa using h d hd
      simp [findByIdAndDelete, he]
    · intro d hd
      have hmem : d ∈ st.docs := List.mem_of_find?_eq_some hd
      have hdid : d._id = id := by simpa using List.find?_some hd
      have he := eraseP_id_eq_erase st.docs id d hd
      refine ⟨hmem, hdid, ?_, ?_, ?_, ?_⟩
      · simp [findByIdAndDelete, he]
      · simp only [findByIdAndDelete, he]
        rw [List.length_erase_of_mem hmem]
        have : 0 < st.docs.length := List.length_pos_of_mem hmem
        omega
      · intro e hne
        simp only [findByIdAndDelete, he]
        exact List.mem_erase_of_ne hne
      · intro hnd
        simp only [findByIdAndDelete, he]
        exact no_id_left_after_erase st.docs id d hnd hmem hdid
  · intro hid
    simp only [deleteJobs, hid]

theorem deleteJobs_removes_exactly_witness :
    castObjectId "000000000000000000000001" = some 1 ∧
      (deleteJobs
        { docs :=
            [newJob 0 7 (Body.mk (.text "Google") (.text "SDE Intern") .undefined .undefined),
              newJob 1 9 (Body.mk (.text "Meta") (.text "PM") .undefined (.text "Offer"))],
          nextId := 2 } "000000000000000000000001").1 =
        { status := 200, body := .message "Deleted" } ∧
      (deleteJobs
        { docs :=
            [newJob 0 7 (Body.mk (.text "Google") (.text "SDE Intern") .undefined .undefined),
              newJob 1 9 (Body.mk (.text "Meta") (.text "PM") .undefined (.text "Offer"))],
          nextId := 2 } "000000000000000000000001").2.docs =
        [newJob 0 7 (Body.mk (.text "Google") (.text "SDE Intern") .undefined .undefined)] ∧
      (deleteJobs emptyStore "00000000000000000000000a").2 = emptyStore :=
  ⟨by decide,
    ((deleteJobs_removes_exactly _ "000000000000000000000001").2.1 1 (by decide)).1,
    by decide,
    ((deleteJobs_removes_exactly emptyStore "00000000000000000000000a").2.1 10 (by decide)).2.1
      (by decide)⟩

/-- C4: the list operation answers 200 with a list that holds exactly the persisted
records (a permutation of the store) in which each record's createdAt is greater than or
equal to that of every later record; this holds in every store state, in particular
after any sequence of creates, whatever the order of their timestamps. -/
theorem getJobs_sorted_desc (st : Store) :
    getJobs st = { status := 200, body := .jobs (findSortedByCreatedAtDesc st) } ∧
      (findSortedByCreatedAtDesc st).Perm st.docs ∧
      (findSortedByCreatedAtDesc st).Pairwise (fun a b => b.createdAt ≤ a.createdAt) ∧
      List.Chain' (fun a b => b.createdAt ≤ a.createdAt) (findSortedByCreatedAtDesc st) := by
  haveI : IsTotal Job (fun a b => b.createdAt ≤ a.createdAt) := ⟨fun a b => Nat.le_total _ _⟩
  haveI : IsTrans Job (fun a b => b.createdAt ≤ a.createdAt) :=
    ⟨fun a b c hab hbc => Nat.le_trans hbc hab⟩
  have hs : (findSortedByCreatedAtDesc st).Sorted (fun a b => b.createdAt ≤ a.createdAt) :=
    List.sorted_insertionSort _ _
  exact ⟨rfl, List.perm_insertionSort _ _, hs, List.Pairwise.chain' hs⟩

theorem wellFormed_of_validate (id now : Nat) (body : Body)
    (h : validate (newJob id now body) = true) : WellFormed (newJob id now body) := by
  simp only [validate, Bool.and_eq_true] at h
  obtain ⟨⟨h1, h2⟩, h3⟩ := h
  refine ⟨?_, ?_, ?_⟩
  · cases hc : body.company with
    | undefined => simp [newJob, hc, requiredOk] at h1
    | null => simp [newJob, hc, requiredOk] at h1
    | text c => exact ⟨c, by simp [newJob, hc], by simpa [newJob, hc, requiredOk] using h1⟩
  · cases hr : body.role with
    | undefined => simp [newJob, hr, requiredOk] at h2
    | null => simp [newJob, hr, requiredOk] at h2
    | text r => exact ⟨r, by simp [newJob, hr], by simpa [newJob, hr, requiredOk] using h2⟩
  · cases hs : body.status with
    | undefined => exact Or.inr ⟨"Applied", by simp [newJob, hs], by simp [statusEnum]⟩
    | null => exact Or.inl (by simp [newJob, hs])
    | text s =>
      exact Or.inr ⟨s, by simp [newJob, hs], by simpa [newJob, hs, enumOk] using h3⟩

theorem step_preserves_wellFormed (st : Store) (op : Op)
    (h : ∀ d ∈ st.docs, WellFormed d) : ∀ d ∈ (step st op).docs, WellFormed d := by
  cases op with
  | create now reqBody =>
    cases reqBody with
    | none => exact h
    | some body =>
      intro d hd
      simp only [step, postJobs] at hd
      split at hd
      · exact h d hd
      · by_cases hv : validate (newJob st.nextId now body) = true
        · simp only [save, hv, if_true, List.mem_append, List.mem_singleton] at hd
          rcases hd with hd | hd
          · exact h d hd
          · rw [hd]
            exact wellFormed_of_validate _ _ _ hv
        · simp only [save, hv] at hd
          exact h d hd
  | delete idParam =>
    intro d hd
    simp only [step, deleteJobs] at hd
    split at hd
    · exact h d hd
    · simp only [findByIdAndDelete] at hd
      exact h d (List.mem_of_mem_eraseP hd)

theorem run_preserves_wellFormed (ops : List Op) (st : Store)
    (h : ∀ d ∈ st.docs, WellFormed d) : ∀ d ∈ (run st ops).docs, WellFormed d := by
  induction ops generalizing st with
  | nil => simpa [run] using h
  | cons op ops ih =>
    have hstep := step_preserves_wellFormed st op h
    have := ih (step st op) hstep
    simpa [run] using this

/-- In every store reached from the empty store by a sequence of create and delete
requests, every persisted record has a non-empty company, a non-empty role, and a status
that is `null` or one of Applied, Interview, Offer, Rejected. -/
theorem reachable_records_wellFormed (ops : List Op) (d : Job)
    (hd : d ∈ (run emptyStore ops).docs) :
    (∃ c, d.company = .text c ∧ c ≠ "") ∧
      (∃ r, d.role = .text r ∧ r ≠ "") ∧
      (d.status = .null ∨ ∃ s, d.status = .text s ∧
        (s = "Applied" ∨ s = "Interview" ∨ s = "Offer" ∨ s = "Rejected")) := by
  have h := run_preserves_wellFormed ops emptyStore (by simp [emptyStore]) d hd
  obtain ⟨h1, h2, h3⟩ := h
  refine ⟨h1, h2, ?_⟩
  rcases h3 with h3 | ⟨s, hs, hmem⟩
  · exact Or.inl h3
  · exact Or.inr ⟨s, hs, by simpa [statusEnum] using hmem⟩

/-- C10 fails on the code at a create request whose status is `null`: the request is
answered 201 and the store reached from the empty store holds a record whose status is
`null`, which is none of Applied, Interview, Offer, Rejected. -/
theorem create_null_status_persists :
    (postJobs emptyStore 7
        (some (Body.mk (.text "Acme") (.text "Engineer") .undefined .null))).1.status = 201 ∧
      (run emptyStore
        [Op.create 7 (some (Body.mk (.text "Acme") (.text "Engineer") .undefined .null))]).docs =
        [Job.mk 0 (.text "Acme") (.text "Engineer") .undefined .null 7 7] ∧
      (Job.mk 0 (.text "Acme") (.text "Engineer") .undefined .null 7 7).status ≠
        .text "Applied" ∧
      (Job.mk 0 (.text "Acme") (.text "Engineer") .undefined .null 7 7).status ≠
        .text "Interview" ∧
      (Job.mk 0 (.text "Acme") (.text "Engineer") .undefined .null 7 7).status ≠
        .text "Offer" ∧
      (Job.mk 0 (.text "Acme") (.text "Engineer") .undefined .null 7 7).status ≠
        .text "Rejected" := by
  decide

theorem startsWithChars_iff (s p : List Char) : startsWithChars s p = true ↔ p <+: s := by
  induction p generalizing s with
  | nil => simp [startsWithChars]
  | cons a p ih =>
    cases s with
    | nil => simp [startsWithChars]
    | cons c cs =>
      simp only [startsWithChars, Bool.and_eq_true, decide_eq_true_eq, ih,
        List.cons_prefix_cons]
      constructor
      · rintro ⟨h1, h2⟩
        exact ⟨h1.symm, h2⟩
      · rintro ⟨h1, h2⟩
        exact ⟨h1.symm, h2⟩

theorem includesChars_iff (s sub : List Char) : includesChars s sub = true ↔ sub <:+: s := by
  induction s with
  | nil => simp [includesChars]
  | cons c cs ih =>
    simp only [includesChars, Bool.or_eq_true, startsWithChars_iff, ih, List.infix_cons_iff]

theorem afterScheme_suffix (cs rest : List Char) (h : afterScheme cs = some rest) :
    rest <:+ cs := by
  induction cs with
  | nil => simp [afterScheme] at h
  | cons c cs ih =>
    unfold afterScheme at h
    split at h
    · have hr : rest = cs.drop 2 := (Option.some.inj h).symm
      rw [hr]
      exact (List.drop_suffix 2 cs).trans (List.suffix_cons c cs)
    · exact (ih h).trans (List.suffix_cons c cs)

theorem includes_of_isLocalHostOrigin (o : String) (h : isLocalHostOrigin o = true) :
    includes o "localhost" = true := by
  unfold isLocalHostOrigin originHost at h
  rw [decide_eq_true_eq] at h
  cases hrest : afterScheme o.toList with
  | none =>
    rw [hrest] at h
    exact Option.noConfusion h
  | some rest =>
    rw [hrest] at h
    have hh : rest.takeWhile (fun c => c != ':' && c != '/') = "localhost".toList :=
      Option.some.inj h
    have h1 : "localhost".toList <+: rest := by
      rw [← hh]
      exact List.takeWhile_prefix _
    have h2 : rest <:+ o.toList := afterScheme_suffix _ _ hrest
    unfold includes
    rw [includesChars_iff]
    exact h1.isInfix.trans h2.isInfix

theorem corsOrigin_some_allow_iff (o : String) :
    corsOrigin (some o) = CorsDecision.allow ↔ o = "" ∨ includes o "localhost" = true := by
  by_cases hc : (decide (o = "") || includes o "localhost") = true
  · have hallow : corsOrigin (some o) = CorsDecision.allow := by
      simp only [corsOrigin, hc, if_true]
    rw [Bool.or_eq_true, decide_eq_true_eq] at hc
    exact ⟨fun _ => hc, fun _ => hallow⟩
  · have hreject : corsOrigin (some o) = CorsDecision.reject "Not allowed by CORS" := by
      simp only [corsOrigin, hc]
      rfl
    rw [Bool.or_eq_true, decide_eq_true_eq] at hc
    constructor
    · intro h
      rw [hreject] at h
      exact CorsDecision.noConfusion h
    · intro h
      exact absurd h hc

/-- C9 fails on the code at a request whose origin is https://localhost.evil.example: the
host of that origin is localhost.evil.example, not localhost, so it is no local-host
origin, yet the origin check accepts it, because its text contains "localhost". -/
theorem corsOrigin_accepts_foreign_host :
    corsOrigin (some "https://localhost.evil.example") = CorsDecision.allow ∧
      isLocalHostOrigin "https://localhost.evil.example" = false ∧
      originHost "https://localhost.evil.example" = some "localhost.evil.example".toList := by
  decide

/-- What the origin check computes: it accepts a request exactly when it carries no
origin header, an empty origin header, or an origin whose text contains "localhost";
every local-host origin (host equal to localhost) is of that kind and is accepted; every
request that is not accepted is rejected with the error "Not allowed by CORS". -/
theorem corsOrigin_spec (origin : Option String) :
    (corsOrigin origin = CorsDecision.allow ↔
        origin = none ∨ origin = some "" ∨
          ∃ o, origin = some o ∧ "localhost".toList <:+: o.toList) ∧
      (corsOrigin origin = CorsDecision.allow ∨
        corsOrigin origin = CorsDecision.reject "Not allowed by CORS") ∧
      (∀ o, origin = some o → isLocalHostOrigin o = true →
        corsOrigin origin = CorsDecision.allow) := by
  cases origin with
  | none => simp [corsOrigin]
  | some o =>
    have hinc : includes o "localhost" = true ↔ "localhost".toList <:+: o.toList := by
      unfold includes
      exact includesChars_iff _ _
    refine ⟨?_, ?_, ?_⟩
    · rw [corsOrigin_some_allow_iff, hinc]
      constructor
      · rintro (h | h)
        · exact Or.inr (Or.inl (by rw [h]))
        · exact Or.inr (Or.inr ⟨o, rfl, h⟩)
      · rintro (h | h | ⟨o', ho', h⟩)
        · exact Option.noConfusion h
        · exact Or.inl (Option.some.inj h)
        · rw [Option.some.inj ho']
          exact Or.inr h
    · by_cases hc : (decide (o = "") || includes o "localhost") = true
      · left
        simp only [corsOrigin, hc, if_true]
      · right
        simp only [corsOrigin, hc]
        rfl
    · intro o' ho hl
      have ho' : o' = o := (Option.some.inj ho).symm
      subst ho'
      exact (corsOrigin_some_allow_iff o').mpr (Or.inr (includes_of_isLocalHostOrigin o' hl))

end Backend

/-! ## Theorems about the dashboard aggregations -/

namespace Client

/-! ### Decimal rendering of numbers -/

theorem toDigitsCore_fuel (f1 f2 n : Nat) (ds : List Char) (h1 : n < f1) (h2 : n < f2) :
    Nat.toDigitsCore 10 f1 n ds = Nat.toDigitsCore 10 f2 n ds := by
  induction f1 generalizing f2 n ds with
  | zero => omega
  | succ f1 ih =>
    cases f2 with
    | zero => omega
    | succ f2 =>
      simp only [Nat.toDigitsCore]
      split
      · rfl
      · exact ih f2 (n / 10) _ (by omega) (by omega)

theorem toDigitsCore_append (f n : Nat) (ds : List Char) :
    Nat.toDigitsCore 10 f n ds = Nat.toDigitsCore 10 f n [] ++ ds := by
  induction f generalizing n ds with
  | zero => simp [Nat.toDigitsCore]
  | succ f ih =>
    simp only [Nat.toDigitsCore]
    split
    · simp
    · rw [ih (n / 10) (_ :: ds), ih (n / 10) [_]]
      simp

theorem toDigits_small (n : Nat) (h : n < 10) : Nat.toDigits 10 n = [Nat.digitChar n] := by
  have h0 : n / 10 = 0 := by omega
  have h1 : n % 10 = n := by omega
  simp only [Nat.toDigits, Nat.toDigitsCore, h0, h1, if_true]

theorem toDigits_step (n : Nat) (h : 10 ≤ n) :
    Nat.toDigits 10 n = Nat.toDigits 10 (n / 10) ++ [Nat.digitChar (n % 10)] := by
  have h0 : ¬ n / 10 = 0 := by omega
  have hl : Nat.toDigits 10 n = Nat.toDigitsCore 10 n (n / 10) [Nat.digitChar (n % 10)] := by
    simp only [Nat.toDigits, Nat.toDigitsCore, h0, if_false]
  rw [hl, toDigitsCore_append,
    toDigitsCore_fuel n (n / 10 + 1) (n / 10) [] (by omega) (by omega)]
  rfl

theorem charVal_digitChar (d : Nat) (h : d < 10) : charVal (Nat.digitChar d) = d := by
  interval_cases d <;> rfl

theorem digitChar_toNat (d : Nat) (h : d < 10) : (Nat.digitChar d).toNat = 48 + d := by
  interval_cases d <;> rfl

theorem digitChar_ne_dash (d : Nat) (h : d < 10) : Nat.digitChar d ≠ '-' := by
  interval_cases d <;> decide

theorem decodeDigits_concat (cs : List Char) (c : Char) :
    decodeDigits (cs ++ [c]) = 10 * decodeDigits cs + charVal c := by
  simp [decodeDigits, List.foldl_append]

theorem decodeDigits_toDigits (n : Nat) : decodeDigits (Nat.toDigits 10 n) = n := by
  induction n using Nat.strong_induction_on with
  | _ n ih =>
    by_cases h : n < 10
    · rw [toDigits_small n h]
      simp [decodeDigits, charVal_digitChar n h]
    · rw [toDigits_step n (by omega), decodeDigits_concat, ih (n / 10) (by omega),
        charVal_digitChar _ (Nat.mod_lt _ (by omega))]
      omega

theorem toDigits_no_dash (n : Nat) : ∀ c ∈ Nat.toDigits 10 n, c ≠ '-' := by
  induction n using Nat.strong_induction_on with
  | _ n ih =>
    by_cases h : n < 10
    · rw [toDigits_small n h]
      intro c hc
      rw [List.mem_singleton] at hc
      rw [hc]
      exact digitChar_ne_dash n h
    · rw [toDigits_step n (by omega)]
      intro c hc
      rw [List.mem_append, List.mem_singleton] at hc
      rcases hc with hc | hc
      · exact ih (n / 10) (by omega) c hc
      · rw [hc]
        exact digitChar_ne_dash _ (Nat.mod_lt _ (by omega))

theorem toDigits_ne_nil (n : Nat) : Nat.toDigits 10 n ≠ [] := by
  by_cases h : n < 10
  · rw [toDigits_small n h]
    simp
  · rw [toDigits_step n (by omega)]
    simp

theorem toDigits_injective (n m : Nat) (h : Nat.toDigits 10 n = Nat.toDigits 10 m) : n = m := by
  have := congrArg decodeDigits h
  rwa [decodeDigits_toDigits, decodeDigits_toDigits] at this

theorem yearChars_ofNat (n : Nat) : (toString (Int.ofNat n)).toList = Nat.toDigits 10 n := rfl

theorem yearChars_negSucc (n : Nat) :
    (toString (Int.negSucc n)).toList = '-' :: Nat.toDigits 10 (n + 1) := rfl

theorem yearChars_injective (y y' : Int) (h : (toString y).toList = (toString y').toList) :
    y = y' := by
  cases y with
  | ofNat n =>
    cases y' with
    | ofNat m =>
      rw [yearChars_ofNat, yearChars_ofNat] at h
      rw [toDigits_injective n m h]
    | negSucc m =>
      rw [yearChars_ofNat, yearChars_negSucc] at h
      have hmem : '-' ∈ Nat.toDigits 10 n := by
        rw [h]
        exact List.mem_cons_self _ _
      exact absurd rfl (toDigits_no_dash n _ hmem)
  | negSucc n =>
    cases y' with
    | ofNat m =>
      rw [yearChars_ofNat, yearChars_negSucc] at h
      have hmem : '-' ∈ Nat.toDigits 10 m := by
        rw [← h]
        exact List.mem_cons_self _ _
      exact absurd rfl (toDigits_no_dash m _ hmem)
    | negSucc m =>
      rw [yearChars_negSucc, yearChars_negSucc] at h
      have h2 := toDigits_injective _ _ (List.cons.inj h).2
      have h3 : n = m := by omega
      rw [h3]

theorem monthKey_toList (y : Int) (m : Fin 12) :
    (monthKey y m).toList =
      (toString y).toList ++ '-' :: (padStart2 (toString (m.val + 1))).toList := by
  show ((toString y).toList ++ ['-']) ++ (padStart2 (toString (m.val + 1))).toList = _
  rw [List.append_assoc]
  rfl

theorem monthChars_length :
    ∀ m : Fin 12, (padStart2 (toString (m.val + 1))).toList.length = 2 := by
  decide

theorem monthChars_injective :
    ∀ a b : Fin 12, (padStart2 (toString (a.val + 1))).toList =
      (padStart2 (toString (b.val + 1))).toList → a = b := by
  decide

theorem monthChars_lexLt :
    ∀ a b : Fin 12, lexLt (padStart2 (toString (a.val + 1))).toList
      (padStart2 (toString (b.val + 1))).toList = decide (a < b) := by
  decide

/-- Distinct months have distinct keys. -/
theorem monthKey_injective (y y' : Int) (m m' : Fin 12) (h : monthKey y m = monthKey y' m') :
    y = y' ∧ m = m' := by
  have h1 := congrArg String.toList h
  rw [monthKey_toList, monthKey_toList] at h1
  have hlen : ('-' :: (padStart2 (toString (m.val + 1))).toList).length =
      ('-' :: (padStart2 (toString (m'.val + 1))).toList).length := by
    simp only [List.length_cons, monthChars_length]
  obtain ⟨h2, h3⟩ := List.append_inj' h1 hlen
  exact ⟨yearChars_injective _ _ h2, monthChars_injective _ _ (List.cons.inj h3).2⟩

/-! ### The string order used by the sort -/

theorem char_eq_of_toNat_eq (a b : Char) (h : a.toNat = b.toNat) : a = b := by
  rw [← Char.ofNat_toNat a, ← Char.ofNat_toNat b, h]

theorem lexLt_irrefl (a : List Char) : lexLt a a = false := by
  induction a with
  | nil => rfl
  | cons c cs ih => simp [lexLt, ih]

theorem lexLt_trans (a b c : List Char) (hab : lexLt a b = true) (hbc : lexLt b c = true) :
    lexLt a c = true := by
  induction a generalizing b c with
  | nil =>
    cases b with
    | nil => simp [lexLt] at hab
    | cons y ys =>
      cases c with
      | nil => simp [lexLt] at hbc
      | cons z zs => simp [lexLt]
  | cons x xs ih =>
    cases b with
    | nil => simp [lexLt] at hab
    | cons y ys =>
      cases c with
      | nil => simp [lexLt] at hbc
      | cons z zs =>
        simp only [lexLt] at hab hbc ⊢
        split_ifs at hab hbc ⊢ <;> first | rfl | omega | exact ih ys zs hab hbc

theorem lexLt_total (a b : List Char) (h : a ≠ b) : lexLt a b = true ∨ lexLt b a = true := by
  induction a generalizing b with
  | nil =>
    cases b with
    | nil => exact absurd rfl h
    | cons y ys => simp [lexLt]
  | cons x xs ih =>
    cases b with
    | nil => simp [lexLt]
    | cons y ys =>
      simp only [lexLt]
      by_cases h1 : x.toNat < y.toNat
      · simp [h1]
      · by_cases h2 : y.toNat < x.toNat
        · simp [h2]
        · have hxy : x = y := char_eq_of_toNat_eq x y (by omega)
          have hne : xs ≠ ys := by
            intro hxs
            exact h (by rw [hxy, hxs])
          simpa [h1, h2] using ih ys hne

theorem lexLt_append_left (p a b : List Char) : lexLt (p ++ a) (p ++ b) = lexLt a b := by
  induction p with
  | nil => rfl
  | cons c cs ih => simp [lexLt, ih]

theorem lexLt_append_of_lt (a b s t : List Char) (hlen : a.length = b.length)
    (h : lexLt a b = true) : lexLt (a ++ s) (b ++ t) = true := by
  induction a generalizing b with
  | nil =>
    cases b with
    | nil => simp [lexLt] at h
    | cons y ys => simp at hlen
  | cons x xs ih =>
    cases b with
    | nil => simp at hlen
    | cons y ys =>
      simp only [lexLt, List.cons_append] at h ⊢
      split_ifs at h ⊢ <;> first | rfl | omega | exact ih ys (by simpa using hlen) h

theorem toDigits_four (n : Nat) (h1 : 1000 ≤ n) (h2 : n ≤ 9999) :
    Nat.toDigits 10 n =
      [Nat.digitChar (n / 1000), Nat.digitChar (n / 100 % 10), Nat.digitChar (n / 10 % 10),
        Nat.digitChar (n % 10)] := by
  have e1 : n / 10 / 10 / 10 = n / 1000 := by omega
  have e2 : n / 10 / 10 % 10 = n / 100 % 10 := by omega
  rw [toDigits_step n (by omega), toDigits_step (n / 10) (by omega),
    toDigits_step (n / 10 / 10) (by omega), toDigits_small (n / 10 / 10 / 10) (by omega),
    e1, e2]
  rfl

theorem lexLt_fourDigits (n m : Nat) (hn1 : 1000 ≤ n) (hn2 : n ≤ 9999) (hm1 : 1000 ≤ m)
    (hm2 : m ≤ 9999) : lexLt (Nat.toDigits 10 n) (Nat.toDigits 10 m) = decide (n < m) := by
  rw [toDigits_four n hn1 hn2, toDigits_four m hm1 hm2]
  have a3 := digitChar_toNat (n / 1000) (by omega)
  have a2 := digitChar_toNat (n / 100 % 10) (by omega)
  have a1 := digitChar_toNat (n / 10 % 10) (by omega)
  have a0 := digitChar_toNat (n % 10) (by omega)
  have b3 := digitChar_toNat (m / 1000) (by omega)
  have b2 := digitChar_toNat (m / 100 % 10) (by omega)
  have b1 := digitChar_toNat (m / 10 % 10) (by omega)
  have b0 := digitChar_toNat (m % 10) (by omega)
  simp only [lexLt, a3, a2, a1, a0, b3, b2, b1, b0]
  split_ifs <;> simp <;> omega

theorem lexLt_asymm (a b : List Char) (h : lexLt a b = true) : lexLt b a = false := by
  cases hba : lexLt b a with
  | false => rfl
  | true =>
    have := lexLt_trans a b a h hba
    rw [lexLt_irrefl] at this
    exact absurd this (by simp)

/-- For four-digit years the string order of the keys is the time order of the months. -/
theorem jsStringLt_monthKey (y y' : Int) (m m' : Fin 12) (hy1 : 1000 ≤ y) (hy2 : y ≤ 9999)
    (hy1' : 1000 ≤ y') (hy2' : y' ≤ 9999) :
    jsStringLt (monthKey y m) (monthKey y' m') = true ↔ monthBefore (y, m) (y', m') := by
  obtain ⟨n, rfl⟩ := Int.eq_ofNat_of_zero_le (by omega : 0 ≤ y)
  obtain ⟨n', rfl⟩ := Int.eq_ofNat_of_zero_le (by omega : 0 ≤ y')
  have hn1 : 1000 ≤ n := by omega
  have hn2 : n ≤ 9999 := by omega
  have hn1' : 1000 ≤ n' := by omega
  have hn2' : n' ≤ 9999 := by omega
  have hlen : (Nat.toDigits 10 n).length = (Nat.toDigits 10 n').length := by
    rw [toDigits_four n hn1 hn2, toDigits_four n' hn1' hn2']
    rfl
  have hmb : monthBefore ((n : Int), m) ((n' : Int), m') ↔ n < n' ∨ (n = n' ∧ m < m') := by
    unfold monthBefore
    simp
  rw [hmb]
  unfold jsStringLt
  rw [monthKey_toList, monthKey_toList]
  change lexLt (Nat.toDigits 10 n ++ _) (Nat.toDigits 10 n' ++ _) = true ↔ _
  rcases Nat.lt_trichotomy n n' with h | h | h
  · have hlt : lexLt (Nat.toDigits 10 n) (Nat.toDigits 10 n') = true := by
      rw [lexLt_fourDigits n n' hn1 hn2 hn1' hn2']
      simpa using h
    rw [lexLt_append_of_lt _ _ _ _ hlen hlt]
    simp only [true_iff]
    exact Or.inl h
  · subst h
    rw [lexLt_append_left]
    have hm : lexLt ('-' :: (padStart2 (toString (m.val + 1))).toList)
        ('-' :: (padStart2 (toString (m'.val + 1))).toList) = decide (m < m') := by
      simp only [lexLt, lt_self_iff_false, if_false, monthChars_lexLt]
    rw [hm, decide_eq_true_eq]
    constructor
    · intro hlt
      exact Or.inr ⟨rfl, hlt⟩
    · rintro (hlt | ⟨_, hlt⟩)
      · exact absurd hlt (Nat.lt_irrefl n)
      · exact hlt
  · have hlt : lexLt (Nat.toDigits 10 n') (Nat.toDigits 10 n) = true := by
      rw [lexLt_fourDigits n' n hn1' hn2' hn1 hn2]
      simpa using h
    have hgt := lexLt_append_of_lt _ _
      ('-' :: (padStart2 (toString (m'.val + 1))).toList)
      ('-' :: (padStart2 (toString (m.val + 1))).toList) hlen.symm hlt
    rw [lexLt_asymm _ _ hgt]
    constructor
    · intro hf
      exact absurd hf (by simp)
    · rintro (hlt' | ⟨heq, _⟩)
      · omega
      · omega

/-! ### Objects with string keys -/

theorem keys_set (o : JsObject) (k : String) (v : Nat) :
    (o.set k v).keys = if k ∈ o.keys then o.keys else o.keys ++ [k] := by
  induction o with
  | nil => simp [JsObject.set, JsObject.keys]
  | cons e rest ih =>
    obtain ⟨k', v'⟩ := e
    simp only [JsObject.keys] at ih
    by_cases h : k' = k
    · simp [JsObject.set, JsObject.keys, h]
    · have h' : ¬ k = k' := fun hk => h hk.symm
      by_cases hmem : k ∈ List.map Prod.fst rest
      · simp only [JsObject.set, JsObject.keys, h, if_false, List.map_cons, ih, hmem, if_true,
          List.mem_cons, or_true]
      · simp only [JsObject.set, JsObject.keys, h, if_false, List.map_cons, ih, hmem,
          List.mem_cons, h', or_self, List.cons_append]

theorem nodup_keys_set (o : JsObject) (k : String) (v : Nat) (h : o.keys.Nodup) :
    (o.set k v).keys.Nodup := by
  rw [keys_set]
  split
  · exact h
  · rename_i hk
    rw [List.nodup_append]
    refine ⟨h, List.nodup_singleton k, ?_⟩
    intro a ha hb
    rw [List.mem_singleton] at hb
    exact hk (hb ▸ ha)

theorem get_eq_none_iff (o : JsObject) (k : String) : o.get k = none ↔ k ∉ o.keys := by
  induction o with
  | nil => simp [JsObject.get, JsObject.keys]
  | cons e rest ih =>
    obtain ⟨k', v'⟩ := e
    simp only [JsObject.keys] at ih
    by_cases h : k' = k
    · simp [JsObject.get, JsObject.keys, h]
    · have h' : ¬ k = k' := fun hk => h hk.symm
      simp [JsObject.get, JsObject.keys, h, h', ih]

theorem mem_iff_get (o : JsObject) (h : o.keys.Nodup) (k : String) (v : Nat) :
    (k, v) ∈ o ↔ o.get k = some v := by
  induction o with
  | nil => simp [JsObject.get]
  | cons e rest ih =>
    obtain ⟨k', v'⟩ := e
    simp only [JsObject.keys, List.map_cons, List.nodup_cons] at h
    have ih' := ih h.2
    by_cases hk : k' = k
    · subst hk
      have hnot : (k', v) ∉ rest := by
        intro hmem
        exact h.1 (List.mem_map_of_mem Prod.fst hmem)
      simp only [List.mem_cons, Prod.mk.injEq, true_and, hnot, or_false, JsObject.get,
        if_true, Option.some.injEq]
      exact eq_comm
    · have hk' : ¬ k = k' := fun hh => hk hh.symm
      simp only [List.mem_cons, Prod.mk.injEq, hk', false_and, false_or, JsObject.get, hk,
        if_false, ih']

theorem total_set_incr (o : JsObject) (k : String) :
    (o.set k ((o.get k).getD 0 + 1)).total = o.total + 1 := by
  induction o with
  | nil => simp [JsObject.set, JsObject.get, JsObject.total]
  | cons e rest ih =>
    obtain ⟨k', v'⟩ := e
    simp only [JsObject.total] at ih
    by_cases h : k' = k
    · simp [JsObject.set, JsObject.get, JsObject.total, h]
      omega
    · simp [JsObject.set, JsObject.get, JsObject.total, h, ih]
      omega

theorem get_set (o : JsObject) (k key : String) (v : Nat) :
    (o.set k v).get key = if k = key then some v else o.get key := by
  induction o with
  | nil => simp [JsObject.set, JsObject.get]
  | cons e rest ih =>
    obtain ⟨k', v'⟩ := e
    by_cases h : k' = k
    · subst h
      by_cases h2 : k' = key
      · simp [JsObject.set, JsObject.get, h2]
      · simp [JsObject.set, JsObject.get, h2]
    · by_cases h2 : k' = key
      · subst h2
        have h3 : ¬ k = k' := fun hk => h hk.symm
        simp [JsObject.set, JsObject.get, h, h3]
      · simp [JsObject.set, JsObject.get, h, h2, ih]

/-! ### The monthly map -/

theorem monthlyMap_concat (l : List Job) (j : Job) :
    monthlyMap (l ++ [j]) = monthlyStep (monthlyMap l) j := by
  simp [monthlyMap, List.foldl_append]

theorem validMonths_concat_invalid (l : List Job) (j : Job) (h : j.createdAt = JsDate.invalid) :
    validMonths (l ++ [j]) = validMonths l := by
  simp [validMonths, List.filterMap_append, monthOf, h]

theorem validMonths_concat_valid (l : List Job) (j : Job) (y : Int) (m : Fin 12)
    (h : j.createdAt = JsDate.valid y m) : validMonths (l ++ [j]) = validMonths l ++ [(y, m)] := by
  simp [validMonths, List.filterMap_append, monthOf, h]

theorem monthlyStep_invalid (o : JsObject) (j : Job) (h : j.createdAt = JsDate.invalid) :
    monthlyStep o j = o := by
  simp [monthlyStep, h]

theorem monthlyStep_valid (o : JsObject) (j : Job) (y : Int) (m : Fin 12)
    (h : j.createdAt = JsDate.valid y m) :
    monthlyStep o j = o.set (monthKey y m) ((o.get (monthKey y m)).getD 0 + 1) := by
  simp [monthlyStep, h]

theorem monthlyMap_nodup (jobs : List Job) : (monthlyMap jobs).keys.Nodup := by
  induction jobs using List.reverseRecOn with
  | nil => simp [monthlyMap, JsObject.keys]
  | append_singleton l j ih =>
    rw [monthlyMap_concat]
    cases hd : j.createdAt with
    | invalid => rw [monthlyStep_invalid _ _ hd]; exact ih
    | valid y m => rw [monthlyStep_valid _ _ y m hd]; exact nodup_keys_set _ _ _ ih

theorem monthlyMap_get (jobs : List Job) (key : String) :
    (monthlyMap jobs).get key =
      if keyCount key jobs = 0 then none else some (keyCount key jobs) := by
  induction jobs using List.reverseRecOn with
  | nil => simp [monthlyMap, JsObject.get, keyCount, validMonths]
  | append_singleton l j ih =>
    rw [monthlyMap_concat]
    cases hd : j.createdAt with
    | invalid =>
      rw [monthlyStep_invalid _ _ hd, ih]
      simp only [keyCount, validMonths_concat_invalid l j hd]
    | valid y m =>
      rw [monthlyStep_valid _ _ y m hd, get_set]
      have hc : keyCount key (l ++ [j]) =
          keyCount key l + if monthKey y m = key then 1 else 0 := by
        simp only [keyCount, validMonths_concat_valid l j y m hd, List.countP_append,
          List.countP_cons, List.countP_nil, decide_eq_true_eq]
        omega
      by_cases hk : monthKey y m = key
      · subst hk
        rw [if_pos rfl, hc, if_pos rfl, ih]
        by_cases h0 : keyCount (monthKey y m) l = 0
        · simp [h0]
        · simp [h0]
      · rw [if_neg hk, hc, if_neg hk, ih]
        rfl

theorem monthlyMap_total (jobs : List Job) :
    (monthlyMap jobs).total = (validMonths jobs).length := by
  induction jobs using List.reverseRecOn with
  | nil => simp [monthlyMap, JsObject.total, validMonths]
  | append_singleton l j ih =>
    rw [monthlyMap_concat]
    cases hd : j.createdAt with
    | invalid => rw [monthlyStep_invalid _ _ hd, validMonths_concat_invalid l j hd, ih]
    | valid y m =>
      rw [monthlyStep_valid _ _ y m hd, validMonths_concat_valid l j y m hd, total_set_incr, ih]
      simp

theorem monthlyMap_remove_invalid (l1 l2 : List Job) (j : Job)
    (h : j.createdAt = JsDate.invalid) : monthlyMap (l1 ++ j :: l2) = monthlyMap (l1 ++ l2) := by
  simp [monthlyMap, List.foldl_append, monthlyStep_invalid _ j h]

theorem keyCount_monthKey (jobs : List Job) (y : Int) (m : Fin 12) :
    keyCount (monthKey y m) jobs =
      jobs.countP (fun j => decide (j.createdAt = JsDate.valid y m)) := by
  induction jobs with
  | nil => simp [keyCount, validMonths]
  | cons j rest ih =>
    simp only [keyCount, validMonths] at ih
    cases hd : j.createdAt with
    | invalid =>
      simp [keyCount, validMonths, List.filterMap_cons, monthOf, hd, List.countP_cons, ih]
    | valid y' m' =>
      by_cases hk : monthKey y' m' = monthKey y m
      · obtain ⟨h1, h2⟩ := monthKey_injective _ _ _ _ hk
        subst h1 h2
        simp [keyCount, validMonths, List.filterMap_cons, monthOf, hd, List.countP_cons, ih]
      · have hne : ¬ (y' = y ∧ m' = m) := by
          rintro ⟨h1, h2⟩
          exact hk (by rw [h1, h2])
        simp [keyCount, validMonths, List.filterMap_cons, monthOf, hd, List.countP_cons, ih,
          hk, hne]

theorem validMonths_length (jobs : List Job) :
    (validMonths jobs).length = jobs.countP (fun j => decide (j.createdAt ≠ JsDate.invalid)) := by
  induction jobs with
  | nil => simp [validMonths]
  | cons j rest ih =>
    simp only [validMonths] at ih
    cases hd : j.createdAt with
    | invalid => simp [validMonths, List.filterMap_cons, monthOf, hd, List.countP_cons, ih]
    | valid y m => simp [validMonths, List.filterMap_cons, monthOf, hd, List.countP_cons, ih]

theorem mem_validMonths (jobs : List Job) (y : Int) (m : Fin 12) :
    (y, m) ∈ validMonths jobs ↔ ∃ j ∈ jobs, j.createdAt = JsDate.valid y m := by
  simp only [validMonths, List.mem_filterMap]
  constructor
  · rintro ⟨j, hj, hm⟩
    refine ⟨j, hj, ?_⟩
    cases hd : j.createdAt with
    | invalid => simp [monthOf, hd] at hm
    | valid y' m' =>
      simp only [monthOf, hd, Option.some.injEq, Prod.mk.injEq] at hm
      rw [hm.1, hm.2]
  · rintro ⟨j, hj, hd⟩
    exact ⟨j, hj, by simp [monthOf, hd]⟩

theorem keyCount_pos_iff (jobs : List Job) (key : String) :
    0 < keyCount key jobs ↔ ∃ y m, (y, m) ∈ validMonths jobs ∧ monthKey y m = key := by
  simp only [keyCount, List.countP_pos_iff, decide_eq_true_eq]
  constructor
  · rintro ⟨ym, hmem, hk⟩
    exact ⟨ym.1, ym.2, hmem, hk⟩
  · rintro ⟨y, m, hmem, hk⟩
    exact ⟨(y, m), hmem, hk⟩

/-! ### The sort of the entries -/

theorem compareEntries_neg_iff (x y : String × Nat) :
    compareEntries x y < 0 ↔ jsStringLt x.1 y.1 = true := by
  unfold compareEntries
  split <;> simp_all

theorem pairwise_orderedInsert {α : Type} (r : α → α → Prop) [DecidableRel r]
    (htrans : ∀ a b c, r a b → r b c → r a c) (a : α) (l : List α) (hl : l.Pairwise r)
    (ha : ∀ b ∈ l, r a b ∨ r b a) : (l.orderedInsert r a).Pairwise r := by
  induction l with
  | nil => simp
  | cons b l ih =>
    rw [List.pairwise_cons] at hl
    by_cases hab : r a b
    · rw [List.orderedInsert, if_pos hab, List.pairwise_cons]
      refine ⟨?_, List.pairwise_cons.mpr hl⟩
      intro c hc
      rcases List.mem_cons.mp hc with hc | hc
      · rw [hc]
        exact hab
      · exact htrans a b c hab (hl.1 c hc)
    · have hba : r b a := by
        rcases ha b (List.mem_cons_self b l) with h | h
        · exact absurd h hab
        · exact h
      rw [List.orderedInsert, if_neg hab, List.pairwise_cons]
      refine ⟨?_, ih hl.2 (fun c hc => ha c (List.mem_cons_of_mem b hc))⟩
      intro c hc
      rcases (List.mem_orderedInsert r).mp hc with hc | hc
      · rw [hc]
        exact hba
      · exact hl.1 c hc

theorem pairwise_insertionSort {α : Type} (r : α → α → Prop) [DecidableRel r]
    (htrans : ∀ a b c, r a b → r b c → r a c) (l : List α)
    (hl : l.Pairwise (fun a b => r a b ∨ r b a)) : (l.insertionSort r).Pairwise r := by
  induction l with
  | nil => simp
  | cons a l ih =>
    rw [List.pairwise_cons] at hl
    rw [List.insertionSort]
    apply pairwise_orderedInsert r htrans a _ (ih hl.2)
    intro b hb
    exact hl.1 b ((List.mem_insertionSort r).mp hb)

theorem sortedEntries_perm (jobs : List Job) : (sortedEntries jobs).Perm (monthlyMap jobs) :=
  List.perm_insertionSort _ _

/-- The sorted entries are strictly ascending in the string order of their keys. -/
theorem sortedEntries_pairwise (jobs : List Job) :
    (sortedEntries jobs).Pairwise (fun x y => jsStringLt x.1 y.1 = true) := by
  have hnd := monthlyMap_nodup jobs
  have htri : (monthlyMap jobs).Pairwise
      (fun a b => compareEntries a b < 0 ∨ compareEntries b a < 0) := by
    have h1 : (monthlyMap jobs).Pairwise (fun a b => a.1 ≠ b.1) := by
      simpa [JsObject.keys, List.Nodup, List.pairwise_map] using hnd
    refine h1.imp ?_
    intro a b hab
    rw [compareEntries_neg_iff, compareEntries_neg_iff]
    apply lexLt_total
    intro hl
    exact hab (String.ext hl)
  have hs := pairwise_insertionSort (fun x y : String × Nat => compareEntries x y < 0)
    (fun a b c hab hbc =>
      (compareEntries_neg_iff a c).mpr
        (lexLt_trans _ _ _ ((compareEntries_neg_iff a b).mp hab)
          ((compareEntries_neg_iff b c).mp hbc)))
    (monthlyMap jobs) htri
  exact hs.imp (fun h => (compareEntries_neg_iff _ _).mp h)

theorem statusCounts_get (jobs : List Job) (s : String) (hs : s ∈ statuses) :
    (statusCounts jobs).get s = some (jobs.countP (fun j => j.status == s)) := by
  have hs' : s = "Applied" ∨ s = "Interview" ∨ s = "Offer" ∨ s = "Rejected" := by
    simpa [statuses] using hs
  simp only [statusCounts, statuses, List.foldl, get_set, JsObject.get, List.countP_eq_length_filter]
  rcases hs' with h | h | h | h <;> subst h <;> simp

/-- C5, as stated, fails: a record whose status is outside the four enumerated values is
counted under none of them, so the four counts do not sum to the length of the list. -/
theorem statusCounts_unknown_status :
    statusCounts [Job.mk 1 "Acme" "Engineer" none "Pending" JsDate.invalid] =
        [("Applied", 0), ("Interview", 0), ("Offer", 0), ("Rejected", 0)] ∧
      statusChartData [Job.mk 1 "Acme" "Engineer" none "Pending" JsDate.invalid] =
        [("Applied", 0), ("Interview", 0), ("Offer", 0), ("Rejected", 0)] ∧
      ((statusChartData [Job.mk 1 "Acme" "Engineer" none "Pending" JsDate.invalid]).map
        Prod.snd).sum = 0 ∧
      totalApplications [Job.mk 1 "Acme" "Engineer" none "Pending" JsDate.invalid] = 1 := by
  decide

theorem countP_four_statuses (jobs : List Job) :
    jobs.countP (fun j => j.status == "Applied") + jobs.countP (fun j => j.status == "Interview") +
        jobs.countP (fun j => j.status == "Offer") + jobs.countP (fun j => j.status == "Rejected") =
      jobs.countP (fun j => decide (j.status ∈ statuses)) := by
  induction jobs with
  | nil => simp
  | cons j rest ih =>
    simp only [List.countP_cons, ← ih]
    by_cases h1 : j.status = "Applied"
    · simp [h1, statuses]
      omega
    · by_cases h2 : j.status = "Interview"
      · simp [h2, statuses]
        omega
      · by_cases h3 : j.status = "Offer"
        · simp [h3, statuses]
          omega
        · by_cases h4 : j.status = "Rejected"
          · simp [h4, statuses]
            omega
          · simp [h1, h2, h3, h4, statuses]

/-- C5, amended: for every list of records, the status-count aggregation assigns to each
of the four statuses the number of records whose status equals it, and the four counts
sum to the number of records whose status is one of the four; they sum to the length of
the list exactly when every record has one of the four statuses. -/
theorem statusCounts_spec (jobs : List Job) :
    (∀ s ∈ statuses,
        (statusCounts jobs).get s = some (jobs.countP (fun j => j.status == s))) ∧
      statusChartData jobs =
        statuses.map (fun s => (s, jobs.countP (fun j => j.status == s))) ∧
      ((statusChartData jobs).map Prod.snd).sum =
        jobs.countP (fun j => decide (j.status ∈ statuses)) ∧
      (((statusChartData jobs).map Prod.snd).sum = totalApplications jobs ↔
        ∀ j ∈ jobs, j.status ∈ statuses) := by
  have h1 : ∀ s ∈ statuses,
      (statusCounts jobs).get s = some (jobs.countP (fun j => j.status == s)) :=
    fun s hs => statusCounts_get jobs s hs
  have h2 : statusChartData jobs =
      statuses.map (fun s => (s, jobs.countP (fun j => j.status == s))) := by
    unfold statusChartData
    apply List.map_congr_left
    intro s hs
    rw [h1 s hs]
    rfl
  have h3 : ((statusChartData jobs).map Prod.snd).sum =
      jobs.countP (fun j => decide (j.status ∈ statuses)) := by
    rw [h2, ← countP_four_statuses]
    simp [statuses]
    omega
  refine ⟨h1, h2, h3, ?_⟩
  rw [h3, totalApplications, List.countP_eq_length]
  simp

theorem sortedEntries_keys_nodup (jobs : List Job) :
    ((sortedEntries jobs).map Prod.fst).Nodup :=
  ((sortedEntries_perm jobs).map Prod.fst).nodup_iff.mpr (monthlyMap_nodup jobs)

theorem mem_sortedEntries_iff (jobs : List Job) (key : String) (n : Nat) :
    (key, n) ∈ sortedEntries jobs ↔ 0 < n ∧ n = keyCount key jobs := by
  rw [(sortedEntries_perm jobs).mem_iff, mem_iff_get _ (monthlyMap_nodup jobs), monthlyMap_get]
  by_cases h0 : keyCount key jobs = 0
  · rw [if_pos h0, h0]
    constructor
    · intro h
      exact Option.noConfusion h
    · rintro ⟨h1, h2⟩
      omega
  · rw [if_neg h0]
    constructor
    · intro h
      have := Option.some.inj h
      omega
    · rintro ⟨_, h2⟩
      rw [h2]

theorem sortedEntries_month (jobs : List Job) (e : String × Nat) (he : e ∈ sortedEntries jobs) :
    ∃ y m, e.1 = monthKey y m ∧ (y, m) ∈ validMonths jobs ∧ 0 < e.2 ∧
      e.2 = jobs.countP (fun j => decide (j.createdAt = JsDate.valid y m)) := by
  obtain ⟨key, n⟩ := e
  obtain ⟨hpos, hn⟩ := (mem_sortedEntries_iff jobs key n).mp he
  obtain ⟨y, m, hmem, hk⟩ := (keyCount_pos_iff jobs key).mp (hn ▸ hpos)
  refine ⟨y, m, hk.symm, hmem, hpos, ?_⟩
  rw [← keyCount_monthKey, hk]
  exact hn

/-- C6, as stated, fails: with one record in June of the year 999 and one in June of the
year 1000, the group of the year 1000 is placed before the group of the year 999. -/
theorem sortedEntries_not_chronological :
    sortedEntries
        [Job.mk 1 "Acme" "Engineer" none "Applied" (JsDate.valid 999 5),
          Job.mk 2 "Initech" "Analyst" none "Applied" (JsDate.valid 1000 5)] =
        [(monthKey 1000 5, 1), (monthKey 999 5, 1)] ∧
      monthlyChartData
        [Job.mk 1 "Acme" "Engineer" none "Applied" (JsDate.valid 999 5),
          Job.mk 2 "Initech" "Analyst" none "Applied" (JsDate.valid 1000 5)] =
        [MonthGroup.mk "06/00" 1, MonthGroup.mk "06/99" 1] ∧
      monthBefore (999, 5) (1000, 5) :=
  ⟨by decide, by decide, Or.inl (by decide)⟩

/-- C6, amended: for every list of records, in any input order, the groups of the monthly
aggregation are in strictly ascending order of their key text (year, dash, two-digit
month); when the years of all records with a valid timestamp have four digits (1000 to
9999), every group is the group of one month and each group's (year, month) is strictly
earlier than that of every later group. -/
theorem monthlyChartData_chronological (jobs : List Job)
    (hyears : ∀ ym ∈ validMonths jobs, 1000 ≤ ym.1 ∧ ym.1 ≤ 9999) :
    monthlyChartData jobs =
        (sortedEntries jobs).map (fun e => { month := chartLabel e.1, count := e.2 }) ∧
      (sortedEntries jobs).Pairwise (fun x y => jsStringLt x.1 y.1 = true) ∧
      (∀ e ∈ sortedEntries jobs, ∃ y m, e.1 = monthKey y m ∧ (y, m) ∈ validMonths jobs) ∧
      (sortedEntries jobs).Pairwise (fun e1 e2 => ∀ y1 m1 y2 m2,
        e1.1 = monthKey y1 m1 → e2.1 = monthKey y2 m2 → monthBefore (y1, m1) (y2, m2)) ∧
      List.Chain' (fun e1 e2 => ∀ y1 m1 y2 m2,
        e1.1 = monthKey y1 m1 → e2.1 = monthKey y2 m2 → monthBefore (y1, m1) (y2, m2))
        (sortedEntries jobs) := by
  have hmonth : ∀ e ∈ sortedEntries jobs, ∃ y m,
      e.1 = monthKey y m ∧ (y, m) ∈ validMonths jobs := by
    intro e he
    obtain ⟨y, m, h1, h2, _⟩ := sortedEntries_month jobs e he
    exact ⟨y, m, h1, h2⟩
  have hbounds : ∀ e ∈ sortedEntries jobs, ∀ y m, e.1 = monthKey y m →
      1000 ≤ y ∧ y ≤ 9999 := by
    intro e he y m hk
    obtain ⟨y', m', hk', hmem⟩ := hmonth e he
    obtain ⟨hy, _⟩ := monthKey_injective y y' m m' (hk.symm.trans hk')
    rw [hy]
    exact hyears (y', m') hmem
  have hpw : (sortedEntries jobs).Pairwise (fun e1 e2 => ∀ y1 m1 y2 m2,
      e1.1 = monthKey y1 m1 → e2.1 = monthKey y2 m2 → monthBefore (y1, m1) (y2, m2)) := by
    refine (sortedEntries_pairwise jobs).imp_of_mem ?_
    intro e1 e2 h1 h2 hlt y1 m1 y2 m2 hk1 hk2
    obtain ⟨ha, hb⟩ := hbounds e1 h1 y1 m1 hk1
    obtain ⟨hc, hd⟩ := hbounds e2 h2 y2 m2 hk2
    rw [hk1, hk2] at hlt
    exact (jsStringLt_monthKey y1 y2 m1 m2 ha hb hc hd).mp hlt
  exact ⟨rfl, sortedEntries_pairwise jobs, hmonth, hpw, List.Pairwise.chain' hpw⟩

theorem monthlyChartData_chronological_witness :
    (∀ ym ∈ validMonths sampleJobs, 1000 ≤ ym.1 ∧ ym.1 ≤ 9999) ∧
      sortedEntries sampleJobs = [(monthKey 2025 0, 1), (monthKey 2025 10, 2)] ∧
      (sortedEntries sampleJobs).Pairwise (fun e1 e2 => ∀ y1 m1 y2 m2,
        e1.1 = monthKey y1 m1 → e2.1 = monthKey y2 m2 → monthBefore (y1, m1) (y2, m2)) :=
  ⟨by decide, by decide, (monthlyChartData_chronological sampleJobs (by decide)).2.2.2.1⟩

theorem monthlyChartData_counts (jobs : List Job) :
    (monthlyChartData jobs).map MonthGroup.count = (sortedEntries jobs).map Prod.snd := by
  simp [monthlyChartData, List.map_map, Function.comp_def]

theorem mem_statuses_of_literal (s : String)
    (hs : s = "Applied" ∨ s = "Interview" ∨ s = "Offer" ∨ s = "Rejected") : s ∈ statuses := by
  rcases hs with h | h | h | h <;> subst h <;> decide

/-- C7: the monthly aggregation has exactly one group for each distinct (year, month) of
the records with a valid timestamp (the group keys are pairwise distinct, distinct months
have distinct keys, and a month has a group exactly when some record with a valid
timestamp falls in it); the count of a group is the number of records of its month; the
counts sum to the number of records with a valid timestamp; a record with an invalid
timestamp can be removed without changing the monthly groups; and the count stored under
each of Applied, Interview, Offer, Rejected is the number of all records of that status,
so a record with an invalid timestamp and one of these statuses adds one to the count of
its status. -/
theorem monthlyChartData_groups (jobs : List Job) :
    ((sortedEntries jobs).map Prod.fst).Nodup ∧
      (∀ y m y' m', monthKey y m = monthKey y' m' → y = y' ∧ m = m') ∧
      (∀ y m, (∃ n, (monthKey y m, n) ∈ sortedEntries jobs) ↔
        ∃ j ∈ jobs, j.createdAt = JsDate.valid y m) ∧
      (∀ y m n, (monthKey y m, n) ∈ sortedEntries jobs →
        n = jobs.countP (fun j => decide (j.createdAt = JsDate.valid y m))) ∧
      (∀ e ∈ sortedEntries jobs, ∃ y m, e.1 = monthKey y m ∧ 0 < e.2 ∧
        e.2 = jobs.countP (fun j => decide (j.createdAt = JsDate.valid y m))) ∧
      ((sortedEntries jobs).map Prod.snd).sum =
        jobs.countP (fun j => decide (j.createdAt ≠ JsDate.invalid)) ∧
      (monthlyChartData jobs).map MonthGroup.count = (sortedEntries jobs).map Prod.snd ∧
      (∀ s, s = "Applied" ∨ s = "Interview" ∨ s = "Offer" ∨ s = "Rejected" →
        (statusCounts jobs).get s = some (jobs.countP (fun x => x.status == s))) ∧
      (∀ l1 l2 j, jobs = l1 ++ j :: l2 → j.createdAt = JsDate.invalid →
        monthlyChartData jobs = monthlyChartData (l1 ++ l2) ∧
          ∀ s, s = "Applied" ∨ s = "Interview" ∨ s = "Offer" ∨ s = "Rejected" →
            (statusCounts jobs).get s =
              some ((l1 ++ l2).countP (fun x => x.status == s) +
                if j.status = s then 1 else 0)) := by
  refine ⟨sortedEntries_keys_nodup jobs, fun y m y' m' h => monthKey_injective y y' m m' h,
    ?_, ?_, ?_, ?_, monthlyChartData_counts jobs, ?_, ?_⟩
  · intro y m
    rw [← mem_validMonths]
    constructor
    · rintro ⟨n, hn⟩
      obtain ⟨hpos, hc⟩ := (mem_sortedEntries_iff jobs _ n).mp hn
      obtain ⟨y', m', hmem, hk⟩ := (keyCount_pos_iff jobs _).mp (hc ▸ hpos)
      obtain ⟨h1, h2⟩ := monthKey_injective _ _ _ _ hk
      rw [← h1, ← h2]
      exact hmem
    · intro hmem
      have hpos : 0 < keyCount (monthKey y m) jobs :=
        (keyCount_pos_iff jobs _).mpr ⟨y, m, hmem, rfl⟩
      exact ⟨_, (mem_sortedEntries_iff jobs _ _).mpr ⟨hpos, rfl⟩⟩
  · intro y m n hn
    rw [← keyCount_monthKey]
    exact ((mem_sortedEntries_iff jobs _ n).mp hn).2
  · intro e he
    obtain ⟨y, m, h1, _, h3, h4⟩ := sortedEntries_month jobs e he
    exact ⟨y, m, h1, h3, h4⟩
  · have hsum : ((sortedEntries jobs).map Prod.snd).sum = (monthlyMap jobs).total :=
      ((sortedEntries_perm jobs).map Prod.snd).sum_eq
    rw [hsum, monthlyMap_total, validMonths_length]
  · intro s hs
    exact statusCounts_get jobs s (mem_statuses_of_literal s hs)
  · intro l1 l2 j hjobs hinv
    constructor
    · simp only [monthlyChartData, sortedEntries, hjobs, monthlyMap_remove_invalid l1 l2 j hinv]
    · intro s hs
      rw [statusCounts_get jobs s (mem_statuses_of_literal s hs), hjobs]
      by_cases hj : j.status = s
      · simp [List.countP_append, List.countP_cons, hj]
        omega
      · simp [List.countP_append, List.countP_cons, hj]

theorem monthlyChartData_groups_witness :
    sortedEntries sampleJobs = [(monthKey 2025 0, 1), (monthKey 2025 10, 2)] ∧
      monthlyChartData sampleJobs = [MonthGroup.mk "01/25" 1, MonthGroup.mk "11/25" 2] ∧
      ((sortedEntries sampleJobs).map Prod.snd).sum =
        sampleJobs.countP (fun j => decide (j.createdAt ≠ JsDate.invalid)) ∧
      sampleJobs.countP (fun j => decide (j.createdAt ≠ JsDate.invalid)) = 3 ∧
      monthlyChartData sampleJobs =
        monthlyChartData
          ([Job.mk 1 "Google" "SDE Intern" none "Applied" (JsDate.valid 2025 10),
            Job.mk 2 "Meta" "PM" none "Offer" (JsDate.valid 2025 0)] ++
            [Job.mk 4 "Acme" "Engineer" none "Applied" (JsDate.valid 2025 10)]) ∧
      (statusCounts sampleJobs).get "Rejected" =
        some (sampleJobs.countP (fun x => x.status == "Rejected")) ∧
      (statusCounts sampleJobs).get "Rejected" = some 1 ∧
      (statusCounts
        ([Job.mk 1 "Google" "SDE Intern" none "Applied" (JsDate.valid 2025 10),
          Job.mk 2 "Meta" "PM" none "Offer" (JsDate.valid 2025 0)] ++
          [Job.mk 4 "Acme" "Engineer" none "Applied" (JsDate.valid 2025 10)])).get "Rejected" =
        some 0 :=
  ⟨by decide, by decide,
    (monthlyChartData_groups sampleJobs).2.2.2.2.2.1,
    by decide,
    ((monthlyChartData_groups sampleJobs).2.2.2.2.2.2.2.2
      [Job.mk 1 "Google" "SDE Intern" none "Applied" (JsDate.valid 2025 10),
        Job.mk 2 "Meta" "PM" none "Offer" (JsDate.valid 2025 0)]
      [Job.mk 4 "Acme" "Engineer" none "Applied" (JsDate.valid 2025 10)]
      (Job.mk 3 "Initech" "Analyst" none "Rejected" JsDate.invalid) rfl rfl).1,
    (monthlyChartData_groups sampleJobs).2.2.2.2.2.2.2.1 "Rejected" (by decide),
    by decide, by decide⟩

/-- C8: the table rows are the full list when the filter is "All"; for any other filter
they are the records of the list whose status equals the filter, in their original
relative order (a sublist of the list that keeps every record of that status, with its
multiplicity, and no other record). -/
theorem filteredJobs_spec (filterStatus : String) (jobs : List Job) :
    (filterStatus = "All" → filteredJobs filterStatus jobs = jobs) ∧
      (filterStatus ≠ "All" →
        filteredJobs filterStatus jobs = jobs.filter (fun job => job.status == filterStatus) ∧
          (filteredJobs filterStatus jobs).Sublist jobs ∧
          (∀ j, j ∈ filteredJobs filterStatus jobs ↔ j ∈ jobs ∧ j.status = filterStatus) ∧
          ∀ j, (filteredJobs filterStatus jobs).count j =
            if j.status = filterStatus then jobs.count j else 0) := by
  constructor
  · intro h
    simp [filteredJobs, h]
  · intro h
    have hf : filteredJobs filterStatus jobs =
        jobs.filter (fun job => job.status == filterStatus) := by
      simp [filteredJobs, h]
    refine ⟨hf, ?_, ?_, ?_⟩
    · rw [hf]
      exact List.filter_sublist jobs
    · intro j
      rw [hf]
      simp [List.mem_filter]
    · intro j
      rw [hf]
      by_cases hj : j.status = filterStatus
      · rw [if_pos hj]
        exact List.count_filter (by simpa using hj)
      · rw [if_neg hj, List.count_eq_zero]
        simp [List.mem_filter, hj]

theorem filteredJobs_of_status (jobs : List Job) (s : String) (hs : s ∈ statuses) :
    filteredJobs s jobs = jobs.filter (fun job => job.status == s) := by
  have hne : s ≠ "All" := by
    intro h
    rw [h] at hs
    exact absurd hs (by decide)
  simp [filteredJobs, hne]

/-- C11: for every list of records and each of the four statuses, the number of table
rows under that filter (the length of filteredJobs) is the count stored for the status in
statusCounts, which is the figure of the summary (`statusCounts[s] || 0`) and the value of
the status in the pie chart rows; with the filter "All" the number of rows is the
total-applications figure. -/
theorem filteredJobs_length_eq_statusCounts (jobs : List Job) :
    (∀ s ∈ statuses,
        (statusCounts jobs).get s = some (filteredJobs s jobs).length ∧
          ((statusCounts jobs).get s).getD 0 = (filteredJobs s jobs).length ∧
          (s, (filteredJobs s jobs).length) ∈ statusChartData jobs) ∧
      filteredJobs "All" jobs = jobs ∧
      (filteredJobs "All" jobs).length = totalApplications jobs := by
  refine ⟨?_, ?_, ?_⟩
  · intro s hs
    have hget : (statusCounts jobs).get s = some (filteredJobs s jobs).length := by
      rw [statusCounts_get jobs s hs, filteredJobs_of_status jobs s hs,
        List.countP_eq_length_filter]
    refine ⟨hget, ?_, ?_⟩
    · rw [hget]
      rfl
    · unfold statusChartData
      rw [List.mem_map]
      refine ⟨s, hs, ?_⟩
      rw [hget]
      rfl
  · simp [filteredJobs]
  · simp [filteredJobs, totalApplications]

theorem filteredJobs_length_eq_statusCounts_witness :
    "Applied" ∈ statuses ∧
      (statusCounts sampleJobs).get "Applied" =
        some (filteredJobs "Applied" sampleJobs).length ∧
      (filteredJobs "Applied" sampleJobs).length = 2 ∧
      (filteredJobs "All" sampleJobs).length = totalApplications sampleJobs ∧
      totalApplications sampleJobs = 4 :=
  ⟨by decide,
    ((filteredJobs_length_eq_statusCounts sampleJobs).1 "Applied" (by decide)).1,
    by decide,
    (filteredJobs_length_eq_statusCounts sampleJobs).2.2,
    by decide⟩

end Client

end JobQuest
